import Mathlib

/-!
# Verification of `webflow-multilingual.js`

Shallow embedding of the in-page localization engine from
`dist/webflow-multilingual.js` and proofs about it.

The script works as follows:
* `LANG_REG_EXP = /\[\[([a-z]{2})\]\]([^\[]+)/g` scans a text blob for
  language tags `[[xx]]content`; the content is the maximal non-empty run
  of characters other than a left bracket.
* For each tagged text node a dictionary (JS object, i.e. an insertion
  ordered association list with last-write-wins update) is built; if the
  default language `"ca"` is missing, the first entry's value is copied
  into the default slot (with a console warning).
* The active language is resolved as
  `getLangParam() || getLangFromStorage() || getBrowserLang()`.
* `applyLang` rewrites each indexed node's text to
  `dict[currentLang] || dict[DEFAULT_LANG] || ''` (writing only when the
  value changed) and toggles visibility of `[autolang]` elements.
* `setLang(lang)` rejects falsy or non-length-2 input with a console
  warning, otherwise updates the language, persists it when storage is
  available, and re-applies.

JS strings are modelled as Lean `String`; JS `null`/`undefined`-or-string
values as `Option String`; truthiness of strings (`""` is falsy) is made
explicit.  Diagnostics (console.warn) are modelled as a `Bool` flag.
-/

namespace Webflow

/-- The `DEFAULT_LANG` constant from the script. -/
def DEFAULT_LANG : String := "ca"

/-- A character matching the regex class `[a-z]`. -/
def isLower (c : Char) : Bool := 'a' ≤ c && c ≤ 'z'

/-!
## The regex scanner

`LANG_REG_EXP = /\[\[([a-z]{2})\]\]([^\[]+)/g`, driven by the
`while ((match = LANG_REG_EXP.exec(nodeValue)) !== null)` loop.
`matchAt` is one attempt of the pattern anchored at the current position:
literal `[[`, two lowercase letters, literal `]]`, then a greedy non-empty
run of characters other than `[`.  The scanner advances by one character
on failure (the regex engine's search for the leftmost match) and resumes
after the matched content on success (`lastIndex`).
-/

/-- One anchored attempt of `LANG_REG_EXP` at the head of the input.
On success returns the captured code, the captured content, and the
remaining input after the match. -/
def matchAt : List Char → Option (String × String × List Char)
  | '[' :: '[' :: a :: b :: ']' :: ']' :: rest =>
      if isLower a && isLower b && !(rest.takeWhile (fun c => c ≠ '[')).isEmpty
      then some (String.mk [a, b],
                 String.mk (rest.takeWhile (fun c => c ≠ '[')),
                 rest.dropWhile (fun c => c ≠ '['))
      else none
  | _ => none

/-- The global-flag exec loop over the whole input, fuelled by the input
length (each step consumes at least one character, so `cs.length` fuel is
always enough).  Returns the matches in order of occurrence. -/
def scanFuel : Nat → List Char → List (String × String)
  | 0, _ => []
  | _ + 1, [] => []
  | fuel + 1, c :: rest =>
      match matchAt (c :: rest) with
      | some r => (r.1, r.2.1) :: scanFuel fuel r.2.2
      | none => scanFuel fuel rest

/-- All matches of `LANG_REG_EXP` in a string, leftmost first. -/
def scan (s : String) : List (String × String) := scanFuel s.data.length s.data

/-!
## JS object dictionaries

`dict[langCode] = text` on a JS object: insertion-ordered association
list, assignment to an existing key updates in place, a new key is
appended.  `dictGet` is property lookup, `dictGet d k = none` models
`dict[k] === undefined`.
-/

/-- JS object property assignment `d[k] = v`. -/
def dictInsert : List (String × String) → String → String → List (String × String)
  | [], k, v => [(k, v)]
  | p :: rest, k, v =>
      if p.1 = k then (p.1, v) :: rest else p :: dictInsert rest k v

/-- JS object property read `d[k]` (`none` = `undefined`). -/
def dictGet (d : List (String × String)) (k : String) : Option String :=
  (d.find? (fun p => p.1 = k)).map (fun p => p.2)

/-- The dictionary built by the `while` loop:
`dict[match[1]] = match[2]` for each match in order. -/
def parse (s : String) : List (String × String) :=
  (scan s).foldl (fun d p => dictInsert d p.1 p.2) []

/-- Modelled from the spec: the spec describes a tag's content as "running
up to (but not including) the next `[[` or the end of the string"; this is
that reading, for comparison with the code's `[^\[]+` capture (which stops
at any single `[`). -/
def takeUntilTag : List Char → List Char
  | '[' :: '[' :: _ => []
  | c :: rest => c :: takeUntilTag rest
  | [] => []

/-- A string of the shape `[a-z]{2}`: a valid tag code. -/
def isCode (c : String) : Bool :=
  match c.data with
  | [a, b] => isLower a && isLower b
  | _ => false

/-- A string that LANG_REG_EXP can capture as tag content: non-empty and
free of `[`. -/
def isContent (t : String) : Bool :=
  !t.data.isEmpty && t.data.all (fun c => c ≠ '[')

/-- Assemble a blob `[[c1]]t1[[c2]]t2...` from code/content pairs; used to
state what `parse` recovers from a well-formed tagged blob. -/
def render : List (String × String) → String
  | [] => ""
  | p :: ps => "[[" ++ p.1 ++ "]]" ++ p.2 ++ render ps

/-!
## Language resolution

The external reads of the script: `location.search`, localStorage (its
availability flag and the value under `LANG_STORAGE_KEY`), and
`navigator.language` / `navigator.userLanguage`.  JS string truthiness
(`null`/`undefined`/`""` are falsy) is `truthy`.
-/

/-- Key for localStorage; the store is modelled as the single optional
value held under this key. -/
def LANG_STORAGE_KEY : String := "lang"

/-- The environment read by the language-detection functions. -/
structure Env where
  search : String
  storageEnabled : Bool
  stored : Option String
  navLanguage : Option String
  navUserLanguage : Option String

/-- JS truthiness of a nullable string: `none` when the value is
`null`/`undefined` or the empty string. -/
def truthy : Option String → Option String
  | some s => if s = "" then none else some s
  | none => none

/-- JS `a || b` where `b` is a plain string. -/
def jsOrS (a : Option String) (b : String) : String := (truthy a).getD b

/-- One anchored attempt of `/[?&]lang=([a-z]{2})/` at the head of the
input. -/
def paramHere : List Char → Option String
  | q :: 'l' :: 'a' :: 'n' :: 'g' :: '=' :: c1 :: c2 :: _ =>
      if (q = '?' || q = '&') && isLower c1 && isLower c2
      then some (String.mk [c1, c2]) else none
  | _ => none

/-- Leftmost match of `/[?&]lang=([a-z]{2})/`. -/
def firstParam : List Char → Option String
  | [] => none
  | c :: rest =>
      match paramHere (c :: rest) with
      | some r => some r
      | none => firstParam rest

/-- Model of `getLangParam`: match `location.search` against `/[?&]lang=([a-z]{2})/`
and return the captured group, else `null`. -/
def getLangParam (env : Env) : Option String := firstParam env.search.data

/-- Model of `getLangFromStorage`: `isStorageEnabled ? localStorage.getItem(LANG_STORAGE_KEY) : null`. -/
def getLangFromStorage (env : Env) : Option String :=
  if env.storageEnabled then env.stored else none

/-- The chain `navigator.language || navigator.userLanguage`, with JS truthiness. -/
def envLang (env : Env) : Option String :=
  (truthy env.navLanguage).or (truthy env.navUserLanguage)

/-- Model of `getBrowserLang`: `(navigator.language || navigator.userLanguage || DEFAULT_LANG).substr(0, 2)`. -/
def getBrowserLang (env : Env) : String :=
  ((envLang env).getD DEFAULT_LANG).take 2

/-- The initializer of `currentLang`:
`getLangParam() || getLangFromStorage() || getBrowserLang()`.
A pure function of the environment (the script performs no writes here). -/
def resolveInitial (env : Env) : String :=
  ((truthy (getLangParam env)).or (truthy (getLangFromStorage env))).getD
    (getBrowserLang env)

/-!
## Page state and the apply engine

`globalDict` entries are (text node, dictionary) pairs; a text node is
represented by its current `nodeValue`.  Elements are represented by their
`autolang` attribute (`none` when absent) and their `style.display`.
-/

/-- One entry of `globalDict`: a text node reference (its current
`nodeValue`) together with its language dictionary. -/
structure TextItem where
  nodeValue : String
  dict : List (String × String)
deriving DecidableEq

/-- An element, as far as `applyLang` observes it: its `autolang`
attribute (`none` = attribute absent) and its `style.display`. -/
structure Elem where
  autolang : Option String
  display : String
deriving DecidableEq

/-- The part of the page `applyLang` reads and writes. -/
structure PageState where
  items : List TextItem
  elems : List Elem
deriving DecidableEq

/-- The expression `item.dict[lang] || item.dict[DEFAULT_LANG] || ''`. -/
def newText (d : List (String × String)) (lang : String) : String :=
  jsOrS (dictGet d lang) (jsOrS (dictGet d DEFAULT_LANG) "")

/-- The text-node update of `applyLang`: write `newText` to the node only
when it differs from the current content. -/
def applyItem (lang : String) (it : TextItem) : TextItem :=
  let t := newText it.dict lang
  if it.nodeValue = t then it else { it with nodeValue := t }

/-- First pass over `*[autolang]`: hide every element carrying the
attribute. -/
def applyElemHide (e : Elem) : Elem :=
  if e.autolang.isSome then { e with display := "none" } else e

/-- Second pass over `*[autolang="lang"]`: reveal the elements whose
attribute value equals the current language. -/
def applyElemShow (lang : String) (e : Elem) : Elem :=
  if e.autolang = some lang then { e with display := "" } else e

/-- Model of `applyLang`, as a state transition on the page, with the current
language passed explicitly. -/
def applyLang (lang : String) (st : PageState) : PageState :=
  { items := st.items.map (applyItem lang),
    elems := st.elems.map (fun e => applyElemShow lang (applyElemHide e)) }

/-- The whole mutable state `setLang` touches: `currentLang`, the store,
and the page. -/
structure AppState where
  currentLang : String
  storageEnabled : Bool
  stored : Option String
  page : PageState
deriving DecidableEq

/-- Model of `setLang(lang)`.  The argument is `Option String` (`none` = calling
with `null`/`undefined`).  Returns the new state and whether the
`console.warn` diagnostic fired.  The guard is the code's
`!lang || lang.length !== 2`; on rejection nothing is touched.  The
function is total: no exception reaches the caller. -/
def setLang (lang : Option String) (s : AppState) : AppState × Bool :=
  match lang with
  | none => (s, true)
  | some l =>
      if l = "" || l.length ≠ 2 then (s, true)
      else
        ({ s with
            currentLang := l,
            stored := if s.storageEnabled then some l else s.stored,
            page := applyLang l s.page }, false)

/-- A string of exactly two lowercase ASCII letters (the spec's stated
invariant for ActiveLanguage). -/
def isLowerCode (s : String) : Bool :=
  s.length == 2 && s.data.all isLower

/-!
## Index build

The `DOMContentLoaded` handler, per text node: run the exec loop, build
the dictionary, track whether the default language occurred, and when the
dictionary is non-empty but misses the default, copy the first entry's
value into the default slot (`console.warn` modelled as the `Bool`).
Nodes whose dictionary is empty are not indexed (this also covers the
`LANG_REG_EXP.test` filter in `getTextNodes`: no match, empty dictionary).
-/

/-- Per-node index build: `none` when the node is not indexed, otherwise
the final dictionary and whether the missing-default warning fired. -/
def indexNode (nodeValue : String) : Option (List (String × String) × Bool) :=
  let ms := scan nodeValue
  let d := parse nodeValue
  let hasDefault := ms.any (fun p => p.1 = DEFAULT_LANG)
  if d.isEmpty then none
  else if hasDefault then some (d, false)
  else some (dictInsert d DEFAULT_LANG (d.headD ("", "")).2, true)

/-- Example state used by the closed witnesses below. -/
def sampleState : AppState :=
  ⟨"ca", true, none, ⟨[⟨"Hola", [("ca", "Hola"), ("en", "Hello")]⟩], [⟨some "en", "none"⟩, ⟨none, "x"⟩]⟩⟩

/-!
## Dictionary lemmas
-/

theorem dictGet_nil (k : String) : dictGet [] k = none := rfl

theorem dictGet_cons (p : String × String) (d : List (String × String)) (k : String) :
    dictGet (p :: d) k = if p.1 = k then some p.2 else dictGet d k := by
  by_cases h : p.1 = k <;> simp [dictGet, List.find?, h]

theorem dictGet_dictInsert (d : List (String × String)) (k v k2 : String) :
    dictGet (dictInsert d k v) k2 = if k2 = k then some v else dictGet d k2 := by
  induction d with
  | nil =>
      by_cases h : k2 = k
      · simp [dictGet, dictInsert, List.find?, h]
      · simp [dictGet, dictInsert, List.find?, h, Ne.symm h]
  | cons p rest ih =>
      by_cases hp : p.1 = k
      · simp only [dictInsert, if_pos hp]
        by_cases h : k2 = k
        · subst h; simp [dictGet_cons, hp]
        · have hpk2 : p.1 ≠ k2 := by rw [hp]; exact Ne.symm h
          simp [dictGet_cons, hpk2, h]
      · simp only [dictInsert, if_neg hp]
        by_cases h : k2 = k
        · subst h; simp [dictGet_cons, hp, ih]
        · simp [dictGet_cons, ih, h]

theorem mem_dictInsert {q : String × String} {d : List (String × String)} {k v : String}
    (h : q ∈ dictInsert d k v) : q.2 = v ∨ q ∈ d := by
  induction d with
  | nil => simp [dictInsert] at h; simp [h]
  | cons p rest ih =>
      by_cases hp : p.1 = k
      · simp [dictInsert, hp] at h
        rcases h with h | h
        · simp [h]
        · exact Or.inr (List.mem_cons_of_mem _ h)
      · simp [dictInsert, hp] at h
        rcases h with h | h
        · exact Or.inr (by simp [h])
        · rcases ih h with h2 | h2
          · exact Or.inl h2
          · exact Or.inr (List.mem_cons_of_mem _ h2)

theorem dictInsert_append {d : List (String × String)} {k v : String}
    (h : ∀ q ∈ d, q.1 ≠ k) : dictInsert d k v = d ++ [(k, v)] := by
  induction d with
  | nil => rfl
  | cons p rest ih =>
      have hp : p.1 ≠ k := h p (by simp)
      simp [dictInsert, hp]
      exact ih (fun q hq => h q (List.mem_cons_of_mem _ hq))

theorem find?_append_or {α : Type} (l1 l2 : List α) (p : α → Bool) :
    (l1 ++ l2).find? p = (l1.find? p).or (l2.find? p) := by
  induction l1 with
  | nil => simp [List.find?]
  | cons a l ih => simp [List.find?]; cases p a <;> simp [ih]

theorem dictGet_foldl (ms : List (String × String)) (d : List (String × String)) (k : String) :
    dictGet (ms.foldl (fun d p => dictInsert d p.1 p.2) d) k
      = ((ms.reverse.find? (fun p => p.1 = k)).map (fun p => p.2)).or (dictGet d k) := by
  induction ms generalizing d with
  | nil => simp
  | cons m ms ih =>
      simp only [List.foldl_cons, List.reverse_cons]
      rw [ih, find?_append_or]
      cases hfind : ms.reverse.find? (fun p => p.1 = k) with
      | some r => simp
      | none =>
          by_cases h : m.1 = k
          · simp [dictGet_dictInsert, List.find?, h]
          · simp [dictGet_dictInsert, List.find?, h, Ne.symm h]

theorem foldl_dictInsert_nodup (ps : List (String × String)) :
    ∀ d : List (String × String),
    (∀ p ∈ ps, ∀ q ∈ d, q.1 ≠ p.1) → (ps.map Prod.fst).Nodup →
    ps.foldl (fun d p => dictInsert d p.1 p.2) d = d ++ ps := by
  induction ps with
  | nil => intro d _ _; simp
  | cons m ms ih =>
      intro d hdisj hnodup
      rw [List.map_cons] at hnodup
      obtain ⟨hm1, hrest⟩ := List.nodup_cons.mp hnodup
      have hm : dictInsert d m.1 m.2 = d ++ [m] := by
        rw [dictInsert_append (fun q hq => hdisj m (by simp) q hq)]
      simp only [List.foldl_cons, hm]
      rw [ih (d ++ [m])]
      · simp
      · intro p hp q hq
        rcases List.mem_append.mp hq with hq | hq
        · exact hdisj p (List.mem_cons_of_mem _ hp) q hq
        · simp at hq
          subst hq
          intro he
          exact hm1 (List.mem_map.mpr ⟨p, hp, he.symm⟩)
      · exact hrest

/-!
## Scanner lemmas
-/

theorem matchAt_some {cs : List Char} {r : String × String × List Char}
    (h : matchAt cs = some r) : isCode r.1 = true ∧ isContent r.2.1 = true := by
  unfold matchAt at h
  split at h
  case _ a b rest =>
    split at h
    case isTrue hcond =>
      simp only [Bool.and_eq_true] at hcond
      obtain ⟨hab, hne⟩ := hcond
      injection h with h
      subst h
      refine ⟨?_, ?_⟩
      · simpa [isCode] using hab
      · simp only [isContent, Bool.and_eq_true]
        refine ⟨by simpa using hne, ?_⟩
        rw [List.all_eq_true]
        intro c hc
        simpa using List.mem_takeWhile_imp hc
    case isFalse => exact absurd h (by simp)
  case _ => exact absurd h (by simp)

theorem scanFuel_nil (fuel : Nat) : scanFuel fuel [] = [] := by
  cases fuel <;> simp [scanFuel, matchAt]

theorem scanFuel_values (fuel : Nat) :
    ∀ (cs : List Char) (p : String × String), p ∈ scanFuel fuel cs →
    isCode p.1 = true ∧ isContent p.2 = true := by
  induction fuel with
  | zero => intro cs p h; simp [scanFuel] at h
  | succ n ih =>
      intro cs p h
      cases cs with
      | nil => rw [scanFuel] at h; simp at h
      | cons c rest =>
          rw [scanFuel] at h
          cases hm : matchAt (c :: rest) with
          | some r =>
              rw [hm] at h
              simp only [List.mem_cons] at h
              rcases h with h | h
              · subst h; exact matchAt_some hm
              · exact ih _ _ h
          | none =>
              rw [hm] at h
              exact ih _ _ h

theorem scan_values {s : String} {p : String × String} (h : p ∈ scan s) :
    isCode p.1 = true ∧ isContent p.2 = true :=
  scanFuel_values _ _ _ h

theorem mem_foldl_dictInsert (ms : List (String × String)) :
    ∀ (d : List (String × String)) (q : String × String),
    q ∈ ms.foldl (fun d p => dictInsert d p.1 p.2) d →
    q ∈ d ∨ ∃ p, p ∈ ms ∧ q.2 = p.2 := by
  induction ms with
  | nil => intro d q h; exact Or.inl h
  | cons m ms ih =>
      intro d q h
      rcases ih _ _ h with h2 | ⟨p, hp, he⟩
      · rcases mem_dictInsert h2 with he | hd
        · exact Or.inr ⟨m, by simp, he⟩
        · exact Or.inl hd
      · exact Or.inr ⟨p, List.mem_cons_of_mem _ hp, he⟩

/-- Every value stored by `parse` is a value captured by the scanner. -/
theorem mem_parse_values {s : String} {q : String × String} (h : q ∈ parse s) :
    ∃ p, p ∈ scan s ∧ q.2 = p.2 := by
  rcases mem_foldl_dictInsert _ _ _ h with h2 | h2
  · simp at h2
  · exact h2

theorem parse_value_content {s : String} {q : String × String} (h : q ∈ parse s) :
    isContent q.2 = true := by
  obtain ⟨p, hp, he⟩ := mem_parse_values h
  rw [he]
  exact (scan_values hp).2

theorem isContent_ne_empty {t : String} (h : isContent t = true) : t ≠ "" := by
  simp only [isContent, Bool.and_eq_true] at h
  intro he
  subst he
  simp at h

theorem takeWhile_append_of {P : Char → Bool} :
    ∀ (l1 l2 : List Char), (∀ c ∈ l1, P c = true) →
    (∀ c, l2.head? = some c → P c = false) →
    (l1 ++ l2).takeWhile P = l1 ∧ (l1 ++ l2).dropWhile P = l2 := by
  intro l1
  induction l1 with
  | nil =>
      intro l2 _ h2
      cases l2 with
      | nil => simp
      | cons c t => simp [List.takeWhile, List.dropWhile, h2 c rfl]
  | cons a l ih =>
      intro l2 h1 h2
      have ha : P a = true := h1 a (by simp)
      have hrec := ih l2 (fun c hc => h1 c (by simp [hc])) h2
      simp [List.takeWhile, List.dropWhile, ha, hrec.1, hrec.2]

theorem render_cons_data (p : String × String) (ps : List (String × String)) :
    (render (p :: ps)).data
      = '[' :: '[' :: p.1.data ++ ']' :: ']' :: (p.2.data ++ (render ps).data) := by
  show ("[[" ++ p.1 ++ "]]" ++ p.2 ++ render ps).data = _
  have h1 : ("[[" : String).data = ['[', '['] := rfl
  have h2 : ("]]" : String).data = [']', ']'] := rfl
  simp [String.data_append, h1, h2]

theorem render_head (ps : List (String × String)) :
    ∀ c, (render ps).data.head? = some c → (fun c => decide (c ≠ '[')) c = false := by
  cases ps with
  | nil => intro c h; simp [render] at h
  | cons p ps =>
      intro c h
      rw [render_cons_data] at h
      simp at h
      subst h
      simp

theorem scanFuel_render (ps : List (String × String)) :
    ∀ fuel : Nat,
    (∀ p ∈ ps, isCode p.1 = true ∧ isContent p.2 = true) →
    (render ps).data.length ≤ fuel →
    scanFuel fuel (render ps).data = ps := by
  induction ps with
  | nil =>
      intro fuel _ _
      have h : (render []).data = [] := rfl
      rw [h, scanFuel_nil]
  | cons p ps ih =>
      intro fuel hv hlen
      obtain ⟨hc, ht⟩ := hv p (by simp)
      obtain ⟨cstr, tstr⟩ := p
      obtain ⟨cl⟩ := cstr
      obtain ⟨tl⟩ := tstr
      rcases cl with _ | ⟨a, _ | ⟨b, _ | ⟨x, cl2⟩⟩⟩
      · simp [isCode] at hc
      · simp [isCode] at hc
      case cons.intro.mk.mk.mk.cons.cons.cons => simp [isCode] at hc
      simp only [isCode, Bool.and_eq_true] at hc
      simp only [isContent, Bool.and_eq_true, List.all_eq_true] at ht
      have htne : tl ≠ [] := by
        intro he; subst he; simp at ht
      have hall : ∀ c ∈ tl, (fun c => decide (c ≠ '[')) c = true := by
        intro c hc2
        simpa using ht.2 c hc2
      have htake := takeWhile_append_of tl (render ps).data hall (render_head ps)
      have hdata : (render ((String.mk [a, b], String.mk tl) :: ps)).data
          = '[' :: '[' :: a :: b :: ']' :: ']' :: (tl ++ (render ps).data) := by
        rw [render_cons_data]
        simp
      have hM : matchAt ('[' :: '[' :: a :: b :: ']' :: ']' :: (tl ++ (render ps).data))
          = some (String.mk [a, b], String.mk tl, (render ps).data) := by
        simp only [matchAt]
        rw [htake.1, htake.2]
        simp [hc.1, hc.2, htne]
      rw [hdata]
      have hlen2 : (render ps).data.length + 7 ≤ fuel := by
        rw [hdata] at hlen
        have h1 : 1 ≤ tl.length := List.length_pos.mpr htne
        simp only [List.length_cons, List.length_append] at hlen
        omega
      cases fuel with
      | zero => omega
      | succ n =>
          rw [scanFuel, hM]
          have hrec := ih n (fun q hq => hv q (List.mem_cons_of_mem _ hq)) (by omega)
          simp [hrec]

theorem scan_render (ps : List (String × String))
    (hv : ∀ p ∈ ps, isCode p.1 = true ∧ isContent p.2 = true) :
    scan (render ps) = ps :=
  scanFuel_render ps _ hv le_rfl

/-!
## Claim C1
-/

/-- C1 (amended): `parse` maps each valid tag code to the verbatim content
running from immediately after the tag up to (but not including) the next
single `[` (not the next `[[`) or the end of the string, and a tag whose
content would be empty yields no entry.  Stated as: every stored value is
a non-empty bracket-free segment, and any blob assembled as
`[[c1]]t1[[c2]]t2...` from valid codes and non-empty bracket-free contents
with distinct codes parses back to exactly those pairs — in particular
`[[xx]]A[[yy]]B ↦ {xx: "A", yy: "B"}`. -/
theorem parse_tagged_blob :
    (∀ (s : String) (q : String × String), q ∈ parse s → isContent q.2 = true)
    ∧ ∀ ps : List (String × String),
        (∀ p ∈ ps, isCode p.1 = true ∧ isContent p.2 = true) →
        (ps.map Prod.fst).Nodup →
        parse (render ps) = ps := by
  constructor
  · intro s q h
    exact parse_value_content h
  · intro ps hv hn
    unfold parse
    rw [scan_render ps hv]
    simpa using foldl_dictInsert_nodup ps [] (by simp) hn

/-- Closed witness for C1: the two-tag example of the claim. -/
theorem parse_tagged_blob_witness :
    parse "[[xx]]A[[yy]]B" = [("xx", "A"), ("yy", "B")] := by
  have hr : ("[[xx]]A[[yy]]B" : String) = render [("xx", "A"), ("yy", "B")] := by decide
  rw [hr]
  exact parse_tagged_blob.2 [("xx", "A"), ("yy", "B")] (by decide) (by decide)

/-- Counterexample to C1 as stated: content capture stops at any single
`[`, not only at the next `[[`.  For `"[[ab]]A[B"` the claim's reading
("content up to the next `[[` or the end of the string", `takeUntilTag`)
predicts `"A[B"`, but the code stores `"A"`. -/
theorem parse_single_bracket_cex :
    dictGet (parse "[[ab]]A[B") "ab" = some "A"
    ∧ String.mk (takeUntilTag ("A[B".data)) = "A[B"
    ∧ ("A" : String) ≠ "A[B" := by decide

/-!
## Claim C9
-/

/-- C9: when the same code appears in several tags, the dictionary keeps
the content of the last occurrence in left-to-right order: looking up any
code in `parse s` returns the value of the last scanner match with that
code; in particular `[[xx]]A[[xx]]B ↦ {xx: "B"}`. -/
theorem parse_last_write_wins :
    (∀ (s : String) (k : String),
        dictGet (parse s) k
          = ((scan s).reverse.find? (fun p => p.1 = k)).map (fun p => p.2))
    ∧ parse "[[xx]]A[[xx]]B" = [("xx", "B")] := by
  constructor
  · intro s k
    have h := dictGet_foldl (scan s) [] k
    rw [dictGet_nil, Option.or_none] at h
    exact h
  · decide

/-!
## Claim C10
-/

/-- C10: a tag `[[xx]]` immediately followed by another `[` or by the end
of the string produces no match (the capture requires at least one content
character), and consequently every value stored in a parsed dictionary is
a non-empty string.  The claim is checked at the match level
(`matchAt … = none`), at the whole-blob level (`[[ab]]` alone and a
content-less `[[ab]]` before another tag give no `ab` entry), and the
non-emptiness invariant is proved for all inputs. -/
theorem parse_values_nonempty :
    (∀ (s : String) (q : String × String), q ∈ parse s → q.2 ≠ "")
    ∧ (∀ (c1 c2 : Char) (rest : List Char), (rest = [] ∨ rest.head? = some '[') →
        matchAt ('[' :: '[' :: c1 :: c2 :: ']' :: ']' :: rest) = none)
    ∧ parse "[[ab]]" = []
    ∧ dictGet (parse "[[ab]][[cd]]X") "ab" = none := by
  refine ⟨?_, ?_, by decide, by decide⟩
  · intro s q h
    exact isContent_ne_empty (parse_value_content h)
  · intro c1 c2 rest h
    rcases h with h | h
    · subst h
      simp [matchAt]
    · cases rest with
      | nil => simp at h
      | cons c t =>
          simp at h
          subst h
          simp [matchAt, List.takeWhile]

/-- Closed witness for C10: a tag at the very end of the string matches
nothing. -/
theorem parse_values_nonempty_witness :
    matchAt ['[', '[', 'a', 'b', ']', ']'] = none :=
  parse_values_nonempty.2.1 'a' 'b' [] (Or.inl rfl)

/-!
## Claim C2: the language resolver
-/

theorem paramHere_ne_empty {cs : List Char} {p : String}
    (h : paramHere cs = some p) : p ≠ "" := by
  unfold paramHere at h
  split at h
  · split at h
    · injection h with h
      subst h
      intro he
      exact absurd (congrArg String.data he) (by simp)
    · exact absurd h (by simp)
  · exact absurd h (by simp)

theorem firstParam_ne_empty {cs : List Char} {p : String}
    (h : firstParam cs = some p) : p ≠ "" := by
  induction cs with
  | nil => simp [firstParam] at h
  | cons c rest ih =>
      rw [firstParam] at h
      cases hp : paramHere (c :: rest) with
      | some r =>
          rw [hp] at h
          injection h with h
          subst h
          exact paramHere_ne_empty hp
      | none =>
          rw [hp] at h
          exact ih h

/-- C2: `resolveInitial` returns the first non-empty value of, in order:
the 2-letter `lang` request parameter, the persisted choice (when storage
is available and holds a non-empty value), the environment-reported
language truncated to its first 2 characters, and the compiled-in
default; with no parameter, no persisted value and environment language
`"de-DE"` it returns `"de"`.  In the embedding `resolveInitial` is a pure
function of the read-only environment, so it performs no mutation. -/
theorem resolveInitial_priority (env : Env) :
    (∀ p, getLangParam env = some p → resolveInitial env = p)
    ∧ (getLangParam env = none → env.storageEnabled = true →
        ∀ v, env.stored = some v → v ≠ "" → resolveInitial env = v)
    ∧ (getLangParam env = none → truthy (getLangFromStorage env) = none →
        ∀ l, envLang env = some l → resolveInitial env = l.take 2)
    ∧ (getLangParam env = none → truthy (getLangFromStorage env) = none →
        envLang env = none → resolveInitial env = DEFAULT_LANG)
    ∧ resolveInitial ⟨"", false, none, some "de-DE", none⟩ = "de" := by
  refine ⟨?_, ?_, ?_, ?_, by decide⟩
  · intro p h
    have hne : p ≠ "" := firstParam_ne_empty h
    simp [resolveInitial, h, truthy, hne]
  · intro h hs v hv hne
    simp [resolveInitial, h, truthy, getLangFromStorage, hs, hv, hne]
  · intro h hs l hl
    unfold resolveInitial
    rw [h, hs]
    simp [truthy, getBrowserLang, hl]
  · intro h hs hl
    unfold resolveInitial
    rw [h, hs]
    simp [truthy, getBrowserLang, hl]
    decide

/-- Closed witness for C2: with request parameter `lang=es` present the
result is `"es"` regardless of storage and environment language. -/
theorem resolveInitial_priority_witness :
    resolveInitial ⟨"?lang=es", true, some "fr", some "de", none⟩ = "es" :=
  (resolveInitial_priority ⟨"?lang=es", true, some "fr", some "de", none⟩).1 "es" (by decide)

/-!
## Helpers for the index and apply engine
-/

theorem dictGet_parse_eq (s k : String) :
    dictGet (parse s) k
      = ((scan s).reverse.find? (fun p => p.1 = k)).map (fun p => p.2) := by
  have h := dictGet_foldl (scan s) [] k
  rw [dictGet_nil, Option.or_none] at h
  exact h

theorem scan_any_iff (s k : String) :
    ((scan s).any (fun p => p.1 = k) = true) ↔ (dictGet (parse s) k).isSome = true := by
  rw [dictGet_parse_eq, Option.isSome_map', List.find?_isSome, List.any_eq_true]
  constructor
  · rintro ⟨x, hx, hpx⟩
    exact ⟨x, List.mem_reverse.mpr hx, hpx⟩
  · rintro ⟨x, hx, hpx⟩
    exact ⟨x, List.mem_reverse.mp hx, hpx⟩

theorem dictGet_value_mem {d : List (String × String)} {k v : String}
    (h : dictGet d k = some v) : ∃ q ∈ d, q.2 = v := by
  unfold dictGet at h
  cases hf : d.find? (fun p => p.1 = k) with
  | none => rw [hf] at h; simp at h
  | some q =>
      rw [hf] at h
      simp at h
      exact ⟨q, List.mem_of_find?_eq_some hf, h⟩

theorem parse_value_ne_empty {s : String} {q : String × String} (h : q ∈ parse s) :
    q.2 ≠ "" :=
  isContent_ne_empty (parse_value_content h)

theorem dictInsert_ne_nil (d : List (String × String)) (k v : String) :
    dictInsert d k v ≠ [] := by
  cases d with
  | nil => simp [dictInsert]
  | cons p rest =>
      by_cases h : p.1 = k <;> simp [dictInsert, h]

theorem indexNode_values {s : String} {d : List (String × String)} {w : Bool}
    (h : indexNode s = some (d, w)) : ∀ q ∈ d, q.2 ≠ "" := by
  simp only [indexNode] at h
  split at h
  · exact absurd h (by simp)
  · split at h
    · injection h with h2
      intro q hq
      rw [← (Prod.mk.injEq _ _ _ _).mp h2 |>.1] at hq
      exact parse_value_ne_empty hq
    · injection h with h2
      intro q hq
      rw [← (Prod.mk.injEq _ _ _ _).mp h2 |>.1] at hq
      rcases mem_dictInsert hq with he | hm
      · rename_i hne _
        have hps : parse s ≠ [] := by simpa [List.isEmpty_iff] using hne
        cases hp0 : parse s with
        | nil => exact absurd hp0 hps
        | cons p0 rest =>
            rw [he, hp0]
            have : p0 ∈ parse s := by rw [hp0]; simp
            simpa using parse_value_ne_empty this
      · exact parse_value_ne_empty hm

theorem newText_eq_default {d : List (String × String)} {lang v : String}
    (hmiss : dictGet d lang = none) (hdef : dictGet d DEFAULT_LANG = some v)
    (hv : v ≠ "") : newText d lang = v := by
  simp [newText, jsOrS, truthy, hmiss, hdef, hv]

/-!
## Claim C5
-/

/-- C5: after index build every indexed node's dictionary is non-empty
and holds an entry for the compiled default language; when the parsed
blob has no default-language entry, the build copies the first entry's
value into the default slot and fires the diagnostic (`w = true`);
consequently applying a language with no entry renders that copied
text (`newText` returns the default entry's value). -/
theorem indexNode_default_invariant (s : String) (d : List (String × String)) (w : Bool)
    (h : indexNode s = some (d, w)) :
    d ≠ []
    ∧ (∃ v, dictGet d DEFAULT_LANG = some v)
    ∧ (dictGet (parse s) DEFAULT_LANG = none →
        ∃ p, (parse s).head? = some p ∧ dictGet d DEFAULT_LANG = some p.2 ∧ w = true)
    ∧ (∀ lang, dictGet d lang = none →
        ∃ v, dictGet d DEFAULT_LANG = some v ∧ newText d lang = v) := by
  have hvals := indexNode_values h
  simp only [indexNode] at h
  split at h
  · exact absurd h (by simp)
  · rename_i hne
    have hps : parse s ≠ [] := by simpa [List.isEmpty_iff] using hne
    split at h
    · rename_i hdef
      injection h with h2
      obtain ⟨hd, hw⟩ := (Prod.mk.injEq _ _ _ _).mp h2
      subst hd
      have hsome : (dictGet (parse s) DEFAULT_LANG).isSome = true :=
        (scan_any_iff s DEFAULT_LANG).mp hdef
      obtain ⟨v, hv⟩ := Option.isSome_iff_exists.mp hsome
      refine ⟨hps, ⟨v, hv⟩, ?_, ?_⟩
      · intro hnone
        rw [hnone] at hv
        exact absurd hv (by simp)
      · intro lang hmiss
        refine ⟨v, hv, newText_eq_default hmiss hv ?_⟩
        obtain ⟨q, hq, hqv⟩ := dictGet_value_mem hv
        rw [← hqv]
        exact hvals q hq
    · injection h with h2
      obtain ⟨hd, hw⟩ := (Prod.mk.injEq _ _ _ _).mp h2
      cases hp0 : parse s with
      | nil => exact absurd hp0 hps
      | cons p0 rest =>
          have hv0 : dictGet d DEFAULT_LANG = some p0.2 := by
            rw [← hd, hp0, dictGet_dictInsert]
            simp
          refine ⟨?_, ⟨p0.2, hv0⟩, ?_, ?_⟩
          · rw [← hd]
            exact dictInsert_ne_nil _ _ _
          · intro _
            exact ⟨p0, rfl, hv0, hw.symm⟩
          · intro lang hmiss
            refine ⟨p0.2, hv0, newText_eq_default hmiss hv0 ?_⟩
            have : p0 ∈ parse s := by rw [hp0]; simp
            exact parse_value_ne_empty this

/-- Closed witness for C5: `{en: "Hello"}` with default `ca` gets a
synthesized `ca: "Hello"` (with the diagnostic), and applying `fr` (no
`fr` key) renders `"Hello"`. -/
theorem indexNode_default_invariant_witness :
    indexNode "[[en]]Hello" = some ([("en", "Hello"), ("ca", "Hello")], true)
    ∧ ∃ v, dictGet [("en", "Hello"), ("ca", "Hello")] DEFAULT_LANG = some v
        ∧ newText [("en", "Hello"), ("ca", "Hello")] "fr" = v :=
  ⟨by decide,
   (indexNode_default_invariant "[[en]]Hello" [("en", "Hello"), ("ca", "Hello")] true
      (by decide)).2.2.2 "fr" (by decide)⟩

/-!
## Claim C3
-/

/-- C3: one `applyLang lang` call maps every indexed node's text to
`dict[lang] || dict[DEFAULT_LANG] || ''` — equal, for dictionaries built
by the index (whose values are never empty), to
`dict[lang] ?? dict[DEFAULT_LANG] ?? ""` — and writes to a node only
when the new text differs from the current content; independently, every
element carrying the `autolang` attribute is first hidden and then
exactly those whose attribute value equals `lang` are revealed, while
attribute-less elements are untouched. -/
theorem applyLang_updates (lang : String) (st : PageState) :
    (applyLang lang st).items = st.items.map (applyItem lang)
    ∧ (applyLang lang st).elems
        = st.elems.map (fun e => applyElemShow lang (applyElemHide e))
    ∧ (∀ it : TextItem, (applyItem lang it).nodeValue = newText it.dict lang
        ∧ (applyItem lang it).dict = it.dict)
    ∧ (∀ it : TextItem, it.nodeValue = newText it.dict lang → applyItem lang it = it)
    ∧ (∀ (s : String) (d : List (String × String)) (w : Bool),
        indexNode s = some (d, w) →
        ∀ l2, newText d l2 = ((dictGet d l2).or (dictGet d DEFAULT_LANG)).getD "")
    ∧ (∀ (e : Elem) (v : String), e.autolang = some v →
        (applyElemShow lang (applyElemHide e)).display
          = if v = lang then "" else "none")
    ∧ (∀ e : Elem, e.autolang = none → applyElemShow lang (applyElemHide e) = e) := by
  refine ⟨rfl, rfl, ?_, ?_, ?_, ?_, ?_⟩
  · intro it
    by_cases h : it.nodeValue = newText it.dict lang <;> simp [applyItem, h]
  · intro it h
    simp [applyItem, h]
  · intro s d w h l2
    have hvals := indexNode_values h
    cases h2 : dictGet d l2 with
    | some t =>
        have ht : t ≠ "" := by
          obtain ⟨q, hq, hqv⟩ := dictGet_value_mem h2
          rw [← hqv]; exact hvals q hq
        simp [newText, jsOrS, truthy, h2, ht]
    | none =>
        cases hdef : dictGet d DEFAULT_LANG with
        | some v =>
            have hv : v ≠ "" := by
              obtain ⟨q, hq, hqv⟩ := dictGet_value_mem hdef
              rw [← hqv]; exact hvals q hq
            simp [newText, jsOrS, truthy, h2, hdef, hv]
        | none => simp [newText, jsOrS, truthy, h2, hdef]
  · intro e v hv
    by_cases h : v = lang <;>
      simp [applyElemHide, applyElemShow, hv, h]
  · intro e h
    simp [applyElemHide, applyElemShow, h]

/-- Closed witness for C3: an element marked `autolang="en"` ends visible
after `applyLang "en"`. -/
theorem applyLang_updates_witness :
    (applyElemShow "en" (applyElemHide ⟨some "en", "none"⟩)).display
      = if "en" = "en" then "" else "none" :=
  (applyLang_updates "en" ⟨[], []⟩).2.2.2.2.2.1 ⟨some "en", "none"⟩ "en" rfl

/-!
## Claim C4
-/

theorem applyItem_idem (lang : String) (it : TextItem) :
    applyItem lang (applyItem lang it) = applyItem lang it := by
  by_cases h : it.nodeValue = newText it.dict lang <;>
    simp [applyItem, h]

theorem applyElem_idem (lang : String) (e : Elem) :
    applyElemShow lang (applyElemHide (applyElemShow lang (applyElemHide e)))
      = applyElemShow lang (applyElemHide e) := by
  cases he : e.autolang with
  | none => simp [applyElemHide, applyElemShow, he]
  | some v =>
      by_cases hv : v = lang <;>
        simp [applyElemHide, applyElemShow, he, hv]

/-- C4: `applyLang` is idempotent: applying the same language twice in
succession leaves every indexed node's text and every marked element's
visibility identical to applying it once. -/
theorem applyLang_idempotent (lang : String) (st : PageState) :
    applyLang lang (applyLang lang st) = applyLang lang st := by
  simp only [applyLang, List.map_map]
  refine congrArg₂ PageState.mk ?_ ?_
  · exact List.map_eq_map_iff.mpr (fun it _ => applyItem_idem lang it)
  · exact List.map_eq_map_iff.mpr (fun e _ => applyElem_idem lang e)

/-!
## Claim C6
-/

/-- C6 (amended): ActiveLanguage, whenever set via the public `setLang`
API, is always a string of exactly 2 characters (the code checks only
`!lang || lang.length !== 2`, not that the characters are lowercase
letters): absent input or input of a length other than 2 is rejected and
the prior state, ActiveLanguage included, is retained; any 2-character
input is accepted and becomes ActiveLanguage. -/
theorem setLang_two_chars (lang : Option String) (s : AppState) :
    ((setLang lang s).1.currentLang = s.currentLang
      ∨ (setLang lang s).1.currentLang.length = 2)
    ∧ (lang = none → (setLang lang s).1 = s)
    ∧ (∀ l, lang = some l → l.length ≠ 2 → (setLang lang s).1 = s)
    ∧ (∀ l, lang = some l → l.length = 2 → (setLang lang s).1.currentLang = l) := by
  cases lang with
  | none => simp [setLang]
  | some l =>
      by_cases hl : l.length = 2
      · have hne : l ≠ "" := by
          intro he
          rw [he] at hl
          simp at hl
        refine ⟨Or.inr ?_, by simp, ?_, ?_⟩
        · simp [setLang, hne, hl]
        · intro l2 hl2 hlen
          injection hl2 with hl2
          subst hl2
          exact absurd hl hlen
        · intro l2 hl2 _
          injection hl2 with hl2
          subst hl2
          simp [setLang, hne, hl]
      · refine ⟨Or.inl ?_, by simp, ?_, ?_⟩
        · simp [setLang, hl]
        · intro l2 hl2 _
          injection hl2 with hl2
          subst hl2
          simp [setLang, hl]
        · intro l2 hl2 hlen
          injection hl2 with hl2
          subst hl2
          exact absurd hlen hl

/-- Closed witness for C6 (amended): `"en"` is accepted. -/
theorem setLang_two_chars_witness :
    (setLang (some "en") sampleState).1.currentLang = "en" :=
  (setLang_two_chars (some "en") sampleState).2.2.2 "en" rfl (by decide)

/-- Counterexample to C6 as stated: `setLang` checks only the length, not
lowercase letters: `"A1"` is accepted and becomes ActiveLanguage although
it is not a string of 2 lowercase ASCII letters. -/
theorem setLang_not_lowercase_cex :
    (setLang (some "A1") sampleState).1.currentLang = "A1"
    ∧ isLowerCode "A1" = false := by decide

/-!
## Claim C7
-/

/-- C7: every call of `setLang` with an absent argument or one whose
length is not 2 fires the diagnostic and returns the state unchanged:
ActiveLanguage, the persisted choice and the page are untouched; the
embedding is a total function, so no exception reaches the caller. -/
theorem setLang_invalid_rejected (lang : Option String) (s : AppState)
    (h : lang = none ∨ ∃ l, lang = some l ∧ l.length ≠ 2) :
    setLang lang s = (s, true) := by
  rcases h with h | ⟨l, hl, hlen⟩
  · subst h; rfl
  · subst hl
    simp [setLang, hlen]

/-- Closed witness for C7: `setLang(null)` and `setLang("x")` both leave
everything unchanged (and warn). -/
theorem setLang_invalid_rejected_witness :
    setLang none sampleState = (sampleState, true)
    ∧ setLang (some "x") sampleState = (sampleState, true) :=
  ⟨setLang_invalid_rejected none sampleState (Or.inl rfl),
   setLang_invalid_rejected (some "x") sampleState (Or.inr ⟨"x", rfl, by decide⟩)⟩

/-!
## Claim C8
-/

/-- C8: when persistent storage is unavailable, every read of the
persisted choice returns absent (`getLangFromStorage` yields `null`) and
every write — including the one inside a successful `setLang` — leaves
the store untouched; all operations of the embedding are total functions,
so the unavailable store never raises. -/
theorem storage_unavailable (env : Env) (s : AppState) (lang : Option String) :
    (env.storageEnabled = false → getLangFromStorage env = none)
    ∧ (s.storageEnabled = false → (setLang lang s).1.stored = s.stored) := by
  constructor
  · intro h
    simp [getLangFromStorage, h]
  · intro h
    cases lang with
    | none => rfl
    | some l =>
        simp only [setLang]
        split
        · rfl
        · simp [h]

/-- Closed witness for C8: disabled storage reads back `none`, and a
successful `setLang "en"` does not touch the stored value. -/
theorem storage_unavailable_witness :
    getLangFromStorage ⟨"", false, some "fr", none, none⟩ = none
    ∧ (setLang (some "en") ⟨"ca", false, some "fr", ⟨[], []⟩⟩).1.stored = some "fr" :=
  ⟨(storage_unavailable ⟨"", false, some "fr", none, none⟩
      ⟨"ca", false, some "fr", ⟨[], []⟩⟩ (some "en")).1 rfl,
   (storage_unavailable ⟨"", false, some "fr", none, none⟩
      ⟨"ca", false, some "fr", ⟨[], []⟩⟩ (some "en")).2 rfl⟩

end Webflow
